import Mathlib

/-!
Verification of the audio-chunk reserve/commit protocol and the DSD-over-PCM
(DoP) packer of an audio-streaming daemon.

The shallow embedding models:
  - `MusicChunk` with `Write` (reserve) and `Expand` (commit), translated from
    `src/MusicChunk.cxx` (debug build: the `#ifndef NDEBUG` parts are kept,
    since the format-consistency check `CheckFormat` lives there);
  - the DSD-to-USB packer `pcm_dsd_to_usb`, whose translation unit is not part
    of the sources (only the header `src/pcm/PcmDsdUsb.hxx` declares it), so it
    is modelled from the specification's description of the DoP standard;
  - the sndfile decoder plugin's stream-read wrapper
    `SndfileInputStream::Read` from `src/decoder/plugins/SndfileDecoderPlugin.cxx`.

Machine integers (`size_t`, `uint16_t`, `uint32_t`) are modelled as `Nat`;
none of the modelled operations can overflow them on the ranges the claims
quantify over (lengths are bounded by the chunk capacity, packed words by
`2^24`). The C++ `float` timestamp is only ever copied, never computed with,
so it is modelled as an opaque numeric value.
-/

/-- Modelled from the spec (the header `AudioFormat.hxx` is not among the
sources): a sample format is a sample rate, a channel count and a sample
encoding, here represented by its width in bytes.  The spec: "target `format`
(must be valid — every field populated, e.g. sample rate > 0, channel count
> 0, supported encoding)". -/
structure AudioFormat where
  sample_rate : Nat
  channels : Nat
  sample_size : Nat
deriving DecidableEq, Repr

/-- Modelled from the spec's glossary: "`frame_size` = channels ×
bytes_per_sample". -/
def AudioFormat.GetFrameSize (af : AudioFormat) : Nat :=
  af.sample_size * af.channels

/-- Modelled from the spec: a format is valid when every field is populated
(sample rate > 0, channel count > 0, supported encoding — here a positive
sample width). -/
def AudioFormat.IsValid (af : AudioFormat) : Bool :=
  decide (0 < af.sample_rate) && decide (0 < af.channels) &&
    decide (0 < af.sample_size)

/-- State of a `MusicChunk` (from `MusicChunk.hxx` via its use in
`MusicChunk.cxx`): `capacity` models the compile-time constant `sizeof(data)`;
`length` the committed byte count; `audio_format`, `times` and `bit_rate` the
per-chunk metadata.  The byte contents of `data` play no role in the claims
and are omitted. -/
structure MusicChunk where
  capacity : Nat
  length : Nat
  audio_format : AudioFormat
  times : Nat
  bit_rate : Nat
deriving DecidableEq, Repr

/-- Translation of `MusicChunk::CheckFormat` (debug builds):
`return length == 0 || audio_format == other_format;`. -/
def MusicChunk.CheckFormat (c : MusicChunk) (other_format : AudioFormat) : Bool :=
  c.length == 0 || c.audio_format == other_format

/-- Translation of `MusicChunk::Write`: if the chunk is empty, `bit_rate` and
`times` are stamped from the arguments; then `num_frames = (sizeof(data) -
length) / frame_size`; if no whole frame fits the null buffer is returned;
otherwise (debug build) `audio_format = af` and the writable region
`{data + length, num_frames * frame_size}` is returned.  The region is
modelled as `(offset, size)` into `data`, the null buffer as `none`.  The
returned first component is the updated chunk state. -/
def MusicChunk.Write (c : MusicChunk) (af : AudioFormat)
    (data_time : Nat) (br : Nat) : MusicChunk × Option (Nat × Nat) :=
  let c1 := if c.length = 0 then { c with bit_rate := br, times := data_time } else c
  let frame_size := af.GetFrameSize
  let num_frames := (c1.capacity - c1.length) / frame_size
  if num_frames = 0 then (c1, none)
  else ({ c1 with audio_format := af }, some (c1.length, num_frames * frame_size))

/-- Translation of `MusicChunk::Expand`: `length += _length; return length +
frame_size > sizeof(data);`.  The returned flag is the "chunk full" signal. -/
def MusicChunk.Expand (c : MusicChunk) (af : AudioFormat) (len : Nat) :
    MusicChunk × Bool :=
  let frame_size := af.GetFrameSize
  let c1 := { c with length := c.length + len }
  (c1, decide (c.capacity < c1.length + frame_size))

/-- Producer-side operations against one chunk, for trace properties:
a `reserve` is a call to `MusicChunk::Write`, a `commit` a call to
`MusicChunk::Expand`. -/
inductive ChunkOp where
  | reserve (af : AudioFormat) (t : Nat) (br : Nat)
  | commit (af : AudioFormat) (n : Nat)
deriving DecidableEq, Repr

/-- Effect of one operation on the chunk state (the returned buffer or flag is
discarded; only the state evolution matters for the trace claims). -/
def stepChunk (c : MusicChunk) : ChunkOp → MusicChunk
  | .reserve af t br => (c.Write af t br).1
  | .commit af n => (c.Expand af n).1

/-- Runs a sequence of operations from a starting chunk state. -/
def runOps (c : MusicChunk) : List ChunkOp → MusicChunk
  | [] => c
  | op :: ops => runOps (stepChunk c op) ops

/-- Precondition of one operation, per the source's assertions and the spec:
a commit's byte count must be at most the size of the region the matching
reservation returned, `((C - length) / frame_size) * frame_size`. -/
def MusicChunk.opOK (c : MusicChunk) : ChunkOp → Bool
  | .reserve _ _ _ => true
  | .commit af n =>
      decide (n ≤ ((c.capacity - c.length) / af.GetFrameSize) * af.GetFrameSize)

/-- Every operation of the sequence meets its precondition in the state where
it runs. -/
def opsOK (c : MusicChunk) : List ChunkOp → Bool
  | [] => true
  | op :: ops => c.opOK op && opsOK (stepChunk c op) ops

/- Helper lemmas about the chunk operations. -/

theorem write_fst_length (c : MusicChunk) (af : AudioFormat) (t br : Nat) :
    ((c.Write af t br).1).length = c.length := by
  unfold MusicChunk.Write
  dsimp only
  split <;> split <;> rfl

theorem write_fst_capacity (c : MusicChunk) (af : AudioFormat) (t br : Nat) :
    ((c.Write af t br).1).capacity = c.capacity := by
  unfold MusicChunk.Write
  dsimp only
  split <;> split <;> rfl

theorem expand_fst (c : MusicChunk) (af : AudioFormat) (n : Nat) :
    (c.Expand af n).1 = { c with length := c.length + n } := rfl

theorem step_capacity (c : MusicChunk) (op : ChunkOp) :
    (stepChunk c op).capacity = c.capacity := by
  cases op with
  | reserve af t br => exact write_fst_capacity c af t br
  | commit af n => rfl

theorem step_le (c : MusicChunk) (op : ChunkOp) (hok : c.opOK op = true)
    (hcap : c.length ≤ c.capacity) :
    c.length ≤ (stepChunk c op).length ∧ (stepChunk c op).length ≤ c.capacity := by
  cases op with
  | reserve af t br =>
      rw [stepChunk, write_fst_length]
      exact ⟨Nat.le_refl _, hcap⟩
  | commit af n =>
      simp only [MusicChunk.opOK, decide_eq_true_eq] at hok
      have h1 : ((c.capacity - c.length) / af.GetFrameSize) * af.GetFrameSize
          ≤ c.capacity - c.length := Nat.div_mul_le_self _ _
      have h2 : n ≤ c.capacity - c.length := Nat.le_trans hok h1
      simp only [stepChunk, MusicChunk.Expand]
      exact ⟨Nat.le_add_right _ _, by omega⟩

theorem runOps_capacity (c : MusicChunk) (ops : List ChunkOp) :
    (runOps c ops).capacity = c.capacity := by
  induction ops generalizing c with
  | nil => rfl
  | cons op ops ih => rw [runOps, ih, step_capacity]

theorem runOps_le (c : MusicChunk) (ops : List ChunkOp)
    (hcap : c.length ≤ c.capacity) (hok : opsOK c ops = true) :
    c.length ≤ (runOps c ops).length ∧ (runOps c ops).length ≤ c.capacity := by
  induction ops generalizing c with
  | nil => exact ⟨Nat.le_refl _, hcap⟩
  | cons op ops ih =>
      rw [opsOK, Bool.and_eq_true] at hok
      have hstep := step_le c op hok.1 hcap
      have hcap2 : (stepChunk c op).length ≤ (stepChunk c op).capacity := by
        rw [step_capacity]; exact hstep.2
      have hrest := ih (stepChunk c op) hcap2 hok.2
      rw [runOps]
      refine ⟨Nat.le_trans hstep.1 hrest.1, ?_⟩
      calc (runOps (stepChunk c op) ops).length
          ≤ (stepChunk c op).capacity := hrest.2
        _ = c.capacity := step_capacity c op

theorem runOps_append (c : MusicChunk) (pre suf : List ChunkOp) :
    runOps c (pre ++ suf) = runOps (runOps c pre) suf := by
  induction pre generalizing c with
  | nil => rfl
  | cons op ops ih => rw [List.cons_append, runOps, runOps, ih]

theorem opsOK_append (c : MusicChunk) (pre suf : List ChunkOp)
    (h : opsOK c (pre ++ suf) = true) :
    opsOK c pre = true ∧ opsOK (runOps c pre) suf = true := by
  induction pre generalizing c with
  | nil => exact ⟨rfl, h⟩
  | cons op ops ih =>
      rw [List.cons_append, opsOK, Bool.and_eq_true] at h
      have := ih (stepChunk c op) h.2
      exact ⟨by rw [opsOK, Bool.and_eq_true]; exact ⟨h.1, this.1⟩, this.2⟩

/-- C1: committing `n` bytes (at most the previously reserved size, a whole
multiple of the frame size `s`) onto a chunk with committed length `L` and
capacity `C` sets `length` to `L + n`, and the returned "chunk full" flag is
true if and only if `C - (L + n) < s`, i.e. fewer than one additional whole
frame fits. -/
theorem expand_commit_full_iff (c : MusicChunk) (af : AudioFormat) (n : Nat)
    (hv : af.IsValid = true)
    (hcap : c.length ≤ c.capacity)
    (hres : n ≤ ((c.capacity - c.length) / af.GetFrameSize) * af.GetFrameSize)
    (hmul : af.GetFrameSize ∣ n) :
    ((c.Expand af n).1).length = c.length + n ∧
      ((c.Expand af n).2 = true ↔
        c.capacity - (c.length + n) < af.GetFrameSize) := by
  have h1 : ((c.capacity - c.length) / af.GetFrameSize) * af.GetFrameSize
      ≤ c.capacity - c.length := Nat.div_mul_le_self _ _
  have h2 : c.length + n ≤ c.capacity := by omega
  refine ⟨rfl, ?_⟩
  simp only [MusicChunk.Expand, decide_eq_true_eq]
  omega

/-- Concrete instance of C1 at the spec's example: capacity 4096, frame size
4; committing up to committed length 4094 returns `full = true`, committing up
to 4092 returns `full = false`. -/
theorem expand_commit_full_iff_witness :
    (({ capacity := 4096, length := 4090,
        audio_format := ⟨44100, 2, 2⟩, times := 0, bit_rate := 0 } :
          MusicChunk).Expand ⟨44100, 2, 2⟩ 4).1.length = 4094 ∧
    (({ capacity := 4096, length := 4090,
        audio_format := ⟨44100, 2, 2⟩, times := 0, bit_rate := 0 } :
          MusicChunk).Expand ⟨44100, 2, 2⟩ 4).2 = true ∧
    (({ capacity := 4096, length := 4088,
        audio_format := ⟨44100, 2, 2⟩, times := 0, bit_rate := 0 } :
          MusicChunk).Expand ⟨44100, 2, 2⟩ 4).2 = false := by
  have h1 := expand_commit_full_iff
    { capacity := 4096, length := 4090,
      audio_format := ⟨44100, 2, 2⟩, times := 0, bit_rate := 0 }
    ⟨44100, 2, 2⟩ 4 (by decide) (by decide) (by decide) (by decide)
  have h2 := expand_commit_full_iff
    { capacity := 4096, length := 4088,
      audio_format := ⟨44100, 2, 2⟩, times := 0, bit_rate := 0 }
    ⟨44100, 2, 2⟩ 4 (by decide) (by decide) (by decide) (by decide)
  refine ⟨h1.1, h1.2.mpr (by decide), ?_⟩
  exact Bool.eq_false_iff.mpr fun hb => absurd (h2.2.mp hb) (by decide)

/-- C2: a reservation (`MusicChunk::Write`) on a chunk with length `L`,
capacity `C` and a valid format of frame size `s` returns the region starting
at offset `L` of size `⌊(C - L) / s⌋ * s` when at least one whole frame fits,
returns the null "no room" buffer when `⌊(C - L) / s⌋ = 0`, and any returned
region has frame-aligned size and stays within the capacity. -/
theorem write_reserve_region (c : MusicChunk) (af : AudioFormat) (t br : Nat)
    (hv : af.IsValid = true) (hcap : c.length ≤ c.capacity) :
    ((c.capacity - c.length) / af.GetFrameSize = 0 →
        (c.Write af t br).2 = none) ∧
    (0 < (c.capacity - c.length) / af.GetFrameSize →
        (c.Write af t br).2 =
          some (c.length,
            ((c.capacity - c.length) / af.GetFrameSize) * af.GetFrameSize)) ∧
    (∀ off sz, (c.Write af t br).2 = some (off, sz) →
        off = c.length ∧ af.GetFrameSize ∣ sz ∧ off + sz ≤ c.capacity) := by
  have hlen1 : (if c.length = 0
      then ({ c with bit_rate := br, times := t } : MusicChunk) else c).length
        = c.length := by
    split <;> rfl
  have hcap1 : (if c.length = 0
      then ({ c with bit_rate := br, times := t } : MusicChunk) else c).capacity
        = c.capacity := by
    split <;> rfl
  unfold MusicChunk.Write
  dsimp only
  rw [hlen1, hcap1]
  refine ⟨fun h0 => by rw [if_pos h0], fun hpos => ?_, fun off sz hsome => ?_⟩
  · rw [if_neg (Nat.pos_iff_ne_zero.mp hpos)]
  · by_cases h0 : (c.capacity - c.length) / af.GetFrameSize = 0
    · rw [if_pos h0] at hsome; exact absurd hsome (by simp)
    · rw [if_neg h0] at hsome
      have hpair := Option.some.inj hsome
      have hoff : off = c.length := (congrArg Prod.fst hpair).symm
      have hsz : sz = ((c.capacity - c.length) / af.GetFrameSize) * af.GetFrameSize :=
        (congrArg Prod.snd hpair).symm
      refine ⟨hoff, ?_, ?_⟩
      · rw [hsz]; exact dvd_mul_left _ _
      · have hle : ((c.capacity - c.length) / af.GetFrameSize) * af.GetFrameSize
            ≤ c.capacity - c.length := Nat.div_mul_le_self _ _
        rw [hoff, hsz]; omega

/-- Concrete instance of C2: capacity 4096, length 4090, frame size 4 — one
frame fits, the region is `(4090, 4)`; length 4094 — no frame fits, null. -/
theorem write_reserve_region_witness :
    (({ capacity := 4096, length := 4090,
        audio_format := ⟨44100, 2, 2⟩, times := 0, bit_rate := 0 } :
          MusicChunk).Write ⟨44100, 2, 2⟩ 7 9).2 = some (4090, 4) ∧
    (({ capacity := 4096, length := 4094,
        audio_format := ⟨44100, 2, 2⟩, times := 0, bit_rate := 0 } :
          MusicChunk).Write ⟨44100, 2, 2⟩ 7 9).2 = none := by
  have h1 := write_reserve_region
    { capacity := 4096, length := 4090,
      audio_format := ⟨44100, 2, 2⟩, times := 0, bit_rate := 0 }
    ⟨44100, 2, 2⟩ 7 9 (by decide) (by decide)
  have h2 := write_reserve_region
    { capacity := 4096, length := 4094,
      audio_format := ⟨44100, 2, 2⟩, times := 0, bit_rate := 0 }
    ⟨44100, 2, 2⟩ 7 9 (by decide) (by decide)
  exact ⟨h1.2.1 (by decide), h2.1 (by decide)⟩

/-- C4: along any sequence of reserve/commit operations against one chunk,
each commit meeting its precondition (byte count at most the reserved size),
the length is monotonically non-decreasing, never exceeds the capacity at any
point, and a reserve alone never changes the length. -/
theorem chunk_length_monotone_bounded (c : MusicChunk) (pre suf : List ChunkOp)
    (hcap : c.length ≤ c.capacity) (hok : opsOK c (pre ++ suf) = true) :
    c.length ≤ (runOps c pre).length ∧
    (runOps c pre).length ≤ (runOps c (pre ++ suf)).length ∧
    (runOps c (pre ++ suf)).length ≤ c.capacity ∧
    (∀ af t br, ((c.Write af t br).1).length = c.length) := by
  obtain ⟨hok1, hok2⟩ := opsOK_append c pre suf hok
  have h1 := runOps_le c pre hcap hok1
  have hcap2 : (runOps c pre).length ≤ (runOps c pre).capacity := by
    rw [runOps_capacity]; exact h1.2
  have h2 := runOps_le (runOps c pre) suf hcap2 hok2
  rw [runOps_append]
  refine ⟨h1.1, h2.1, ?_, fun af t br => write_fst_length c af t br⟩
  calc (runOps (runOps c pre) suf).length
      ≤ (runOps c pre).capacity := h2.2
    _ = c.capacity := runOps_capacity c pre

/-- Concrete instance of C4: a reserve followed by a commit of 4 bytes on an
empty 8-byte chunk with frame size 4 keeps the length within bounds and
non-decreasing. -/
theorem chunk_length_monotone_bounded_witness :
    opsOK { capacity := 8, length := 0, audio_format := ⟨44100, 2, 2⟩,
            times := 0, bit_rate := 0 }
      ([ChunkOp.reserve ⟨44100, 2, 2⟩ 1 2] ++ [ChunkOp.commit ⟨44100, 2, 2⟩ 4])
        = true ∧
    (runOps { capacity := 8, length := 0, audio_format := ⟨44100, 2, 2⟩,
              times := 0, bit_rate := 0 }
      ([ChunkOp.reserve ⟨44100, 2, 2⟩ 1 2] ++ [ChunkOp.commit ⟨44100, 2, 2⟩ 4])).length
        ≤ 8 := by
  refine ⟨by decide, ?_⟩
  have h := chunk_length_monotone_bounded
    { capacity := 8, length := 0, audio_format := ⟨44100, 2, 2⟩,
      times := 0, bit_rate := 0 }
    [ChunkOp.reserve ⟨44100, 2, 2⟩ 1 2] [ChunkOp.commit ⟨44100, 2, 2⟩ 4]
    (by decide) (by decide)
  exact h.2.2.1

/-- C5: on a non-empty chunk the format-consistency check `CheckFormat`
accepts exactly the stored `audio_format` (a differing format is rejected),
and a reserve or commit with the stored format leaves the chunk's original
`times` and `bit_rate` untouched. -/
theorem chunk_format_check_preserves (c : MusicChunk) (af : AudioFormat)
    (t br n : Nat) (hlen : 0 < c.length) :
    (c.CheckFormat af = true ↔ af = c.audio_format) ∧
    ((c.Write af t br).1.times = c.times ∧
      (c.Write af t br).1.bit_rate = c.bit_rate) ∧
    ((c.Expand af n).1.times = c.times ∧
      (c.Expand af n).1.bit_rate = c.bit_rate) := by
  have hne : c.length ≠ 0 := Nat.pos_iff_ne_zero.mp hlen
  refine ⟨?_, ?_, ⟨rfl, rfl⟩⟩
  · simp only [MusicChunk.CheckFormat, Bool.or_eq_true, beq_iff_eq, hne,
      false_or]
    exact ⟨fun h => h.symm, fun h => h.symm⟩
  · unfold MusicChunk.Write
    dsimp only
    rw [if_neg hne]
    split <;> exact ⟨rfl, rfl⟩

/-- Concrete instance of C5: a chunk holding data in format `⟨44100, 2, 2⟩`
rejects format `⟨48000, 2, 2⟩` and keeps `times = 3`, `bit_rate = 9` across a
same-format reserve. -/
theorem chunk_format_check_preserves_witness :
    0 < (4 : Nat) ∧
    ({ capacity := 4096, length := 4, audio_format := ⟨44100, 2, 2⟩,
            times := 3, bit_rate := 9 } : MusicChunk).CheckFormat ⟨48000, 2, 2⟩
      = false ∧
    (({ capacity := 4096, length := 4, audio_format := ⟨44100, 2, 2⟩,
            times := 3, bit_rate := 9 } : MusicChunk).Write ⟨44100, 2, 2⟩ 77 88).1.times
      = 3 := by
  have h := chunk_format_check_preserves
    { capacity := 4096, length := 4, audio_format := ⟨44100, 2, 2⟩,
      times := 3, bit_rate := 9 }
    ⟨44100, 2, 2⟩ 77 88 4 (by decide)
  refine ⟨by decide, ?_, h.2.1.1⟩
  have h2 := chunk_format_check_preserves
    { capacity := 4096, length := 4, audio_format := ⟨44100, 2, 2⟩,
      times := 3, bit_rate := 9 }
    ⟨48000, 2, 2⟩ 77 88 4 (by decide)
  exact Bool.eq_false_iff.mpr fun hb => absurd (h2.1.mp hb) (by decide)

/-- C6 counterexample: on a still-empty chunk (no commit, no reset in
between), a second reserve overwrites the `times` captured by the first
one — after `Write ⟨44100,2,2⟩ 5 7` then `Write ⟨44100,2,2⟩ 11 13`, `times` is
11 (and `bit_rate` 13), not the first call's 5 and 7, refuting "no subsequent
Reserve of the same chunk (before a Reset) overwrites them". -/
theorem reserve_overwrite_counterexample :
    ((((({ capacity := 4096, length := 0, audio_format := ⟨44100, 2, 2⟩,
            times := 0, bit_rate := 0 } : MusicChunk).Write ⟨44100, 2, 2⟩ 5 7).1).Write
          ⟨44100, 2, 2⟩ 11 13).1).times = 11 ∧
    ((((({ capacity := 4096, length := 0, audio_format := ⟨44100, 2, 2⟩,
            times := 0, bit_rate := 0 } : MusicChunk).Write ⟨44100, 2, 2⟩ 5 7).1).Write
          ⟨44100, 2, 2⟩ 11 13).1).bit_rate = 13 ∧
    ((({ capacity := 4096, length := 0, audio_format := ⟨44100, 2, 2⟩,
            times := 0, bit_rate := 0 } : MusicChunk).Write ⟨44100, 2, 2⟩ 5 7).1).times
      = 5 := by
  refine ⟨?_, ?_, ?_⟩ <;> decide

/-- C6 amended: `times` and `bit_rate` are captured from the arguments on
every reserve of an empty chunk (`length = 0`), including a repeated reserve
before any data has been committed; once `length > 0`, no subsequent reserve
overwrites them until a reset. -/
theorem reserve_capture_amended (c : MusicChunk) (af : AudioFormat)
    (t br : Nat) :
    (c.length = 0 →
      (c.Write af t br).1.times = t ∧ (c.Write af t br).1.bit_rate = br) ∧
    (0 < c.length →
      (c.Write af t br).1.times = c.times ∧
        (c.Write af t br).1.bit_rate = c.bit_rate) := by
  constructor
  · intro h0
    unfold MusicChunk.Write
    dsimp only
    rw [if_pos h0]
    split <;> exact ⟨rfl, rfl⟩
  · intro hpos
    unfold MusicChunk.Write
    dsimp only
    rw [if_neg (Nat.pos_iff_ne_zero.mp hpos)]
    split <;> exact ⟨rfl, rfl⟩

/-- Concrete instance of the amended C6: a first reserve of an empty chunk
captures `times = 5`, `bit_rate = 7`; after a commit makes the chunk
non-empty, a further reserve preserves them. -/
theorem reserve_capture_amended_witness :
    ((({ capacity := 4096, length := 0, audio_format := ⟨44100, 2, 2⟩,
            times := 0, bit_rate := 0 } : MusicChunk).Write ⟨44100, 2, 2⟩ 5 7).1).times
      = 5 ∧
    ((({ capacity := 4096, length := 8, audio_format := ⟨44100, 2, 2⟩,
            times := 5, bit_rate := 7 } : MusicChunk).Write ⟨44100, 2, 2⟩ 11 13).1).times
      = 5 := by
  refine ⟨((reserve_capture_amended
    { capacity := 4096, length := 0, audio_format := ⟨44100, 2, 2⟩,
      times := 0, bit_rate := 0 } ⟨44100, 2, 2⟩ 5 7).1 rfl).1, ?_⟩
  exact ((reserve_capture_amended
    { capacity := 4096, length := 8, audio_format := ⟨44100, 2, 2⟩,
      times := 5, bit_rate := 7 } ⟨44100, 2, 2⟩ 11 13).2 (by decide)).1

/-- C10: a reserve on an empty chunk whose frame size exceeds the remaining
(here: whole) capacity returns the null "no room" buffer, yet `times` and
`bit_rate` have already been overwritten with the call's arguments before the
no-room check; `length` itself is unchanged. -/
theorem write_no_room_overwrites_metadata (c : MusicChunk) (af : AudioFormat)
    (t br : Nat) (hlen : c.length = 0) (hbig : c.capacity < af.GetFrameSize) :
    (c.Write af t br).2 = none ∧
    (c.Write af t br).1.times = t ∧
    (c.Write af t br).1.bit_rate = br ∧
    (c.Write af t br).1.length = 0 := by
  have h0 : (c.capacity - c.length) / af.GetFrameSize = 0 :=
    Nat.div_eq_of_lt (by omega)
  unfold MusicChunk.Write
  dsimp only
  rw [if_pos hlen]
  simp only [show ({ c with bit_rate := br, times := t } : MusicChunk).capacity
      = c.capacity from rfl,
    show ({ c with bit_rate := br, times := t } : MusicChunk).length
      = c.length from rfl, h0, if_true]
  exact ⟨trivial, trivial, trivial, hlen⟩

/-- Concrete instance of C10: an empty 2-byte chunk cannot hold one 4-byte
frame — the reserve returns the null buffer but stamps `times = 5`,
`bit_rate = 7`. -/
theorem write_no_room_overwrites_metadata_witness :
    (({ capacity := 2, length := 0, audio_format := ⟨44100, 2, 2⟩,
            times := 0, bit_rate := 0 } : MusicChunk).Write ⟨44100, 2, 2⟩ 5 7).2
      = none ∧
    (({ capacity := 2, length := 0, audio_format := ⟨44100, 2, 2⟩,
            times := 0, bit_rate := 0 } : MusicChunk).Write ⟨44100, 2, 2⟩ 5 7).1.times
      = 5 := by
  have h := write_no_room_overwrites_metadata
    { capacity := 2, length := 0, audio_format := ⟨44100, 2, 2⟩,
      times := 0, bit_rate := 0 }
    ⟨44100, 2, 2⟩ 5 7 (by decide) (by decide)
  exact ⟨h.1, h.2.1⟩

/-- Modelled from the spec: the two fixed DoP sentinel marker bytes — `0x05`
for the even marker phase, `0xFA` for the odd one. -/
def dop_marker (phase : Bool) : Nat := if phase then 0xFA else 0x05

/-- Modelled from the spec: one packed DoP word, `(marker_byte << 16) |
(dsd_byte << 8) | 0x00`, the low byte being zero padding. -/
def dop_word (phase : Bool) (b : Nat) : Nat :=
  (dop_marker phase <<< 16) ||| ((b % 256) <<< 8) ||| 0x00

/-- Modelled from the spec: packs `nf` DSD frames of `channels` bytes each
from the front of `src` — one output word per input byte, the marker phase
flipping after every frame. -/
def pack_frames (channels : Nat) : Nat → Bool → List Nat → List Nat
  | 0, _, _ => []
  | nf + 1, phase, src =>
      (src.take channels).map (dop_word phase) ++
        pack_frames channels nf (!phase) (src.drop channels)

/-- Modelled from the spec: the packer `pcm_dsd_to_usb`, whose translation
unit is not among the sources (only `src/pcm/PcmDsdUsb.hxx` declares it).
Every group of `channels` input bytes is one DSD frame yielding `channels`
32-bit words; the marker phase starts even (`0x05`) on every call and
alternates per frame; an input length that is not a multiple of `channels` is
a malformed-input contract violation: no output view is produced (`none`). -/
def pcm_dsd_to_usb (channels : Nat) (src : List Nat) : Option (List Nat) :=
  if channels = 0 then none
  else if src.length % channels ≠ 0 then none
  else some (pack_frames channels (src.length / channels) false src)

/- Helper lemmas about the packer. -/

theorem pack_frames_length (channels : Nat) (hc : 0 < channels) :
    ∀ (nf : Nat) (ph : Bool) (src : List Nat), src.length = nf * channels →
      (pack_frames channels nf ph src).length = src.length := by
  intro nf
  induction nf with
  | zero => intro ph src hlen; simp [pack_frames, hlen]
  | succ nf ih =>
      intro ph src hlen
      have hcle : channels ≤ src.length := by
        rw [hlen, Nat.succ_mul]; exact Nat.le_add_left _ _
      have hdrop : (src.drop channels).length = nf * channels := by
        rw [List.length_drop, hlen, Nat.succ_mul]; omega
      simp only [pack_frames, List.length_append, List.length_map,
        List.length_take, ih (!ph) (src.drop channels) hdrop, hdrop, hlen,
        Nat.succ_mul]
      omega

theorem pack_frames_getElem (channels : Nat) (hc : 0 < channels) :
    ∀ (nf : Nat) (ph : Bool) (src : List Nat), src.length = nf * channels →
      ∀ i : Nat, (pack_frames channels nf ph src)[i]? =
        Option.map (dop_word (Bool.xor ph (decide ((i / channels) % 2 = 1)))) src[i]? := by
  intro nf
  induction nf with
  | zero =>
      intro ph src hlen i
      have hnil : src = [] := List.eq_nil_of_length_eq_zero (by simpa using hlen)
      subst hnil
      simp [pack_frames]
  | succ nf ih =>
      intro ph src hlen i
      have hcle : channels ≤ src.length := by
        rw [hlen, Nat.succ_mul]; exact Nat.le_add_left _ _
      have hmaplen : ((src.take channels).map (dop_word ph)).length = channels := by
        rw [List.length_map, List.length_take]; omega
      simp only [pack_frames]
      by_cases hi : i < channels
      · rw [List.getElem?_append_left (by rw [hmaplen]; exact hi),
          List.getElem?_map, List.getElem?_take_of_lt hi,
          Nat.div_eq_of_lt hi]
        simp
      · push_neg at hi
        rw [List.getElem?_append_right (by rw [hmaplen]; exact hi), hmaplen]
        have hdrop : (src.drop channels).length = nf * channels := by
          rw [List.length_drop, hlen, Nat.succ_mul]; omega
        rw [ih (!ph) (src.drop channels) hdrop (i - channels),
          List.getElem?_drop, show channels + (i - channels) = i by omega]
        have hdiv : i / channels = (i - channels) / channels + 1 := by
          conv_lhs => rw [show i = (i - channels) + channels by omega]
          rw [Nat.add_div_right _ hc]
        rw [hdiv]
        have hph : Bool.xor (!ph) (decide (((i - channels) / channels) % 2 = 1))
            = Bool.xor ph (decide ((((i - channels) / channels) + 1) % 2 = 1)) := by
          rcases Nat.mod_two_eq_zero_or_one ((i - channels) / channels) with h | h
          · have h2 : (((i - channels) / channels) + 1) % 2 = 1 := by omega
            simp [h, h2]
          · have h2 : (((i - channels) / channels) + 1) % 2 = 0 := by omega
            simp [h, h2]
        rw [hph]

theorem pcm_dsd_to_usb_eq (channels : Nat) (src : List Nat) (hc : 0 < channels)
    (hlen : src.length % channels = 0) :
    pcm_dsd_to_usb channels src
      = some (pack_frames channels (src.length / channels) false src) := by
  unfold pcm_dsd_to_usb
  rw [if_neg (Nat.pos_iff_ne_zero.mp hc), if_neg (not_not_intro hlen)]

theorem dop_word_eq_formula (k : Nat) :
    dop_word (Bool.xor false (decide (k % 2 = 1))) = fun b =>
      ((if k % 2 = 0 then 0x05 else 0xFA) <<< 16) |||
        ((b % 256) <<< 8) ||| 0x00 := by
  funext b
  rcases Nat.mod_two_eq_zero_or_one k with h | h <;>
    simp [dop_word, dop_marker, h]

theorem pcm_dsd_to_usb_out_getElem (channels : Nat) (src : List Nat)
    (hc : 0 < channels) (hlen : src.length % channels = 0)
    (out : List Nat) (hout : pcm_dsd_to_usb channels src = some out) :
    ∀ i : Nat, out[i]? = Option.map (fun b =>
      ((if (i / channels) % 2 = 0 then 0x05 else 0xFA) <<< 16) |||
        ((b % 256) <<< 8) ||| 0x00) src[i]? := by
  intro i
  have hmul : src.length = (src.length / channels) * channels :=
    (Nat.div_mul_cancel (Nat.dvd_of_mod_eq_zero hlen)).symm
  have hsome := (pcm_dsd_to_usb_eq channels src hc hlen).symm.trans hout
  have hout2 : out = pack_frames channels (src.length / channels) false src :=
    (Option.some.inj hsome).symm
  rw [hout2, pack_frames_getElem channels hc _ false src hmul i,
    dop_word_eq_formula (i / channels)]

/-- C3: for a channel count `channels ≥ 1` and an input whose length is a
multiple of `channels`, the packer emits one 32-bit word per input byte: the
word at index `i` (DSD frame `i / channels`) is `(marker <<< 16) |||
(dsd_byte <<< 8) ||| 0x00` with marker `0x05` for even frames and `0xFA` for
odd frames (0-based within the call). -/
theorem pcm_dsd_to_usb_packs_words (channels : Nat) (src : List Nat)
    (hc : 0 < channels) (hlen : src.length % channels = 0) :
    ∃ out, pcm_dsd_to_usb channels src = some out ∧
      out.length = src.length ∧
      ∀ i : Nat, out[i]? = Option.map (fun b =>
        ((if (i / channels) % 2 = 0 then 0x05 else 0xFA) <<< 16) |||
          ((b % 256) <<< 8) ||| 0x00) src[i]? := by
  have hmul : src.length = (src.length / channels) * channels :=
    (Nat.div_mul_cancel (Nat.dvd_of_mod_eq_zero hlen)).symm
  refine ⟨pack_frames channels (src.length / channels) false src,
    pcm_dsd_to_usb_eq channels src hc hlen,
    pack_frames_length channels hc _ false src hmul,
    pcm_dsd_to_usb_out_getElem channels src hc hlen _
      (pcm_dsd_to_usb_eq channels src hc hlen)⟩

/-- Concrete instance of C3, the spec's round-trip example: channels = 2,
input `[0xAA, 0x55, 0x11, 0x22]` gives four words with markers `0x05, 0x05,
0xFA, 0xFA` and middle bytes `0xAA, 0x55, 0x11, 0x22`. -/
theorem pcm_dsd_to_usb_packs_words_witness :
    (0 : Nat) < 2 ∧ ([0xAA, 0x55, 0x11, 0x22] : List Nat).length % 2 = 0 ∧
    (∃ out, pcm_dsd_to_usb 2 [0xAA, 0x55, 0x11, 0x22] = some out ∧
      out.length = ([0xAA, 0x55, 0x11, 0x22] : List Nat).length ∧
      ∀ i : Nat, out[i]? = Option.map (fun b =>
        ((if (i / 2) % 2 = 0 then 0x05 else 0xFA) <<< 16) |||
          ((b % 256) <<< 8) ||| 0x00) ([0xAA, 0x55, 0x11, 0x22] : List Nat)[i]?) ∧
    pcm_dsd_to_usb 2 [0xAA, 0x55, 0x11, 0x22]
      = some [0x05AA00, 0x055500, 0xFA1100, 0xFA2200] :=
  ⟨by decide, by decide,
    pcm_dsd_to_usb_packs_words 2 [0xAA, 0x55, 0x11, 0x22] (by decide) (by decide),
    by decide⟩

/-- C7: for `channels ≥ 1` and an input length that is not a whole multiple of
`channels`, the packer fails with the malformed-input contract violation and
returns no output view at all — no partial packed words. -/
theorem pcm_dsd_to_usb_malformed_none (channels : Nat) (src : List Nat)
    (hc : 0 < channels) (hlen : src.length % channels ≠ 0) :
    pcm_dsd_to_usb channels src = none := by
  unfold pcm_dsd_to_usb
  rw [if_neg (Nat.pos_iff_ne_zero.mp hc), if_pos hlen]

/-- Concrete instance of C7, the spec's example: channels = 2, input length 3
always fails and produces no output view. -/
theorem pcm_dsd_to_usb_malformed_none_witness :
    (0 : Nat) < 2 ∧ ([1, 2, 3] : List Nat).length % 2 ≠ 0 ∧
    pcm_dsd_to_usb 2 [1, 2, 3] = none :=
  ⟨by decide, by decide,
    pcm_dsd_to_usb_malformed_none 2 [1, 2, 3] (by decide) (by decide)⟩

/-- C9: the packer is deterministic with no hidden cross-call state — two
calls with the same channel count and the same input bytes produce identical
output word sequences, and in any output the marker of the word at index `i`
is solely a function of its frame index `i / channels` within the call,
starting at the even marker `0x05`. -/
theorem pcm_dsd_to_usb_deterministic (channels : Nat) (src1 src2 : List Nat)
    (hc : 0 < channels) (heq : src1 = src2)
    (hlen : src1.length % channels = 0) :
    pcm_dsd_to_usb channels src1 = pcm_dsd_to_usb channels src2 ∧
    ∀ out, pcm_dsd_to_usb channels src1 = some out →
      ∀ i : Nat, out[i]? = Option.map (fun b =>
        ((if (i / channels) % 2 = 0 then 0x05 else 0xFA) <<< 16) |||
          ((b % 256) <<< 8) ||| 0x00) src1[i]? := by
  subst heq
  exact ⟨rfl, fun out hout =>
    pcm_dsd_to_usb_out_getElem channels src1 hc hlen out hout⟩

/-- Concrete instance of C9: two calls on channels = 2 and input
`[0xAA, 0x55, 0x11, 0x22]` agree, with markers `0x05, 0x05, 0xFA, 0xFA`
purely from the frame index. -/
theorem pcm_dsd_to_usb_deterministic_witness :
    (0 : Nat) < 2 ∧ ([0xAA, 0x55, 0x11, 0x22] : List Nat).length % 2 = 0 ∧
    (pcm_dsd_to_usb 2 [0xAA, 0x55, 0x11, 0x22]
        = pcm_dsd_to_usb 2 [0xAA, 0x55, 0x11, 0x22] ∧
      ∀ out, pcm_dsd_to_usb 2 [0xAA, 0x55, 0x11, 0x22] = some out →
        ∀ i : Nat, out[i]? = Option.map (fun b =>
          ((if (i / 2) % 2 = 0 then 0x05 else 0xFA) <<< 16) |||
            ((b % 256) <<< 8) ||| 0x00) ([0xAA, 0x55, 0x11, 0x22] : List Nat)[i]?) :=
  ⟨by decide, by decide,
    pcm_dsd_to_usb_deterministic 2 [0xAA, 0x55, 0x11, 0x22]
      [0xAA, 0x55, 0x11, 0x22] (by decide) rfl (by decide)⟩

/-- Translation of `SndfileInputStream::Read`: "libsndfile chokes on partial
reads; therefore always force full reads" — the wrapper calls
`decoder_read_full` (an external collaborator that either fills the whole
buffer or fails, its outcome modelled by the Boolean parameter) and returns
`size` on success, `0` on failure. -/
def SndfileInputStream.Read (read_full_succeeded : Bool) (size : Nat) : Nat :=
  if read_full_succeeded then size else 0

/-- C8: the sndfile stream-read wrapper returns either exactly the requested
byte count (full read) or 0 (hard failure) — never a partial byte count and
never a silently padded short read. -/
theorem sndfile_read_all_or_nothing (read_full_succeeded : Bool) (size : Nat) :
    SndfileInputStream.Read read_full_succeeded size = size ∨
      SndfileInputStream.Read read_full_succeeded size = 0 := by
  unfold SndfileInputStream.Read
  cases read_full_succeeded
  · exact Or.inr rfl
  · exact Or.inl rfl
